import Mathlib

/-!
Shallow embedding of the Bible reference extraction and resolution engine
(repository: bible_progress_tracker).

Embedded source files:
- src/src/utils/bible_reference_utils.py (BibleRegexBuilder, BibleReferenceExtractor)
- src/annotation/bible_reference_annotator.py (same matcher with decorations)
- src/src/preprocessing/bible_reference_validator.py (BibleReferenceValidator)
- src/src/preprocessing/resolution/exact_matcher.py (ExactBookMatcher)
- src/src/extraction/fuzzy_matcher.py (FuzzyBookMatcher)
- src/src/preprocessing/resolution/book_resolver.py (BookResolver)
- src/src/preprocessing/book_resolver.py (variant with the parenthesised return)
- src/src/preprocessing/normalization/bible_reference_normalizer.py (normalize)
- src/src/preprocessing/bible_reference_normalizer.py (extract_all_references)

Python's regular-expression matching (module re) is embedded by a small
backtracking matcher over an abstract syntax of exactly the constructs the
five patterns use; Python dicts are embedded as ordered association lists
with overwrite-on-repeated-key; rapidfuzz's fuzz.ratio is embedded as the
normalized indel similarity (its documented semantics), built on the longest
common subsequence.
-/

namespace BibleRef

/-! ## Basic string utilities mirroring Python primitives -/

/-- Python whitespace class, ASCII part (space, tab, newline, return, vertical tab, form feed). -/
def isPySpace (c : Char) : Bool :=
  c = ' ' || c = '\t' || c = '\n' || c = '\r' || c = '\x0b' || c = '\x0c'

/-- Python str.split() with no argument: split on whitespace runs, dropping empties. -/
def pySplitGo : List Char → List Char → List (List Char)
  | [], acc => if acc.isEmpty then [] else [acc.reverse]
  | c :: cs, acc =>
    if isPySpace c then
      (if acc.isEmpty then pySplitGo cs [] else acc.reverse :: pySplitGo cs [])
    else pySplitGo cs (c :: acc)

/-- Lower-case a character list (Python str.lower on ASCII input). -/
def lowerChars (cs : List Char) : List Char := cs.map Char.toLower

/-- Python idiom used by every matcher: a space-join of b.lower().split(),
that is trim, collapse internal whitespace, lower-case. -/
def pyNormalize (s : String) : String :=
  ⟨List.intercalate [' '] (pySplitGo (lowerChars s.data) [])⟩

/-- Python str.strip(): drop leading and trailing whitespace. -/
def pyStrip (s : String) : String :=
  ⟨((s.data.dropWhile isPySpace).reverse.dropWhile isPySpace).reverse⟩

/-- Digits-only string to a natural number, as Python int() on a \d+ group. -/
def digitsToNat (s : String) : Nat :=
  s.data.foldl (fun n c => n * 10 + (c.toNat - '0'.toNat)) 0

/-- Inclusive integer range list(range(start, end+1)) from Python. -/
def chaptersList (s e : Int) : List Int :=
  (List.range (e + 1 - s).toNat).map (fun k => s + (k : Int))

/-! ## Data model -/

/-- One record of the book catalog (a row of bible_references.json): stable id,
canonical name, alias list, testament tag, chapter count. -/
structure Book where
  id : Nat
  name : String
  aliases : List String
  testament : String
  chapters : Int
deriving DecidableEq, Repr

/-- Modelled from the spec: the catalog data file data/bible_references.json is
not under src/, so a small concrete catalog is reconstructed from the book
names, aliases and chapter counts the spec and the code comments use
(Kejadian/Kej with 50 chapters, Keluaran/Kel with 40; aliases include the
canonical name). -/
def kejadian : Book := ⟨1, "Kejadian", ["Kejadian", "Kej"], "old", 50⟩

/-- Modelled from the spec: second catalog book, see kejadian. -/
def keluaran : Book := ⟨2, "Keluaran", ["Keluaran", "Kel"], "old", 40⟩

/-- Modelled from the spec: the concrete catalog used by the concrete scenarios. -/
def catalogBooks : List Book := [kejadian, keluaran]

/-! ## Python dict embedding: ordered association list, overwrite on repeat -/

/-- Python dict assignment d[k] = v: replace in place if the key exists,
else append (insertion order is preserved, as for Python dicts; the maps
built here never hold a key twice, so replacing the first occurrence is the
dict behavior). -/
def dictInsert : List (String × Book) → String → Book → List (String × Book)
  | [], k, v => [(k, v)]
  | p :: ps, k, v => if p.1 = k then (k, v) :: ps else p :: dictInsert ps k v

/-- Python dict lookup d.get(k). -/
def dictGet (m : List (String × Book)) (k : String) : Option Book :=
  (m.find? (fun p => p.1 = k)).map (fun p => p.2)

/-- Python dict key list, in insertion order. -/
def dictKeys (m : List (String × Book)) : List String := m.map (fun p => p.1)

/-- Python str.lower() on a whole string. -/
def lowerStr (s : String) : String := ⟨lowerChars s.data⟩

/-- Alias-map entries contributed by one book in ExactBookMatcher.build_alias_mapping
and FuzzyBookMatcher.build_variation_mapping: name first, then each alias,
all lower-cased (lower only; the query side does the whitespace collapsing). -/
def insertBook (m : List (String × Book)) (b : Book) : List (String × Book) :=
  b.aliases.foldl (fun m a => dictInsert m (lowerStr a) b)
    (dictInsert m (lowerStr b.name) b)

/-- ExactBookMatcher.build_alias_mapping (src/preprocessing/resolution/exact_matcher.py,
identical to FuzzyBookMatcher.build_variation_mapping): for each book map the
lowered name and each lowered alias to the book record. -/
def buildAliasMapping (books : List Book) : List (String × Book) :=
  books.foldl insertBook []

/-! ## Chapter validator (src/preprocessing/bible_reference_validator.py) -/

/-- BibleReferenceValidator.validate_chapters: false on start < 1 or end < 1,
false on start > end, false on end > book chapter count, else true. -/
def validate_chapters (bookChapters : Int) (startCh endCh : Int) : Bool :=
  if startCh < 1 || endCh < 1 then false
  else if startCh > endCh then false
  else if endCh > bookChapters then false
  else true

/-! ## Exact matcher (src/preprocessing/resolution/exact_matcher.py) -/

/-- ExactBookMatcher.match: on empty query return (None, 0.0); otherwise
normalize the query and look it up in the alias map; on a hit return the
record with confidence 1.0, else (None, 0.0). -/
def exactMatch (books : List Book) (q : String) : Option Book × ℚ :=
  if q = "" then (none, 0)
  else
    match dictGet (buildAliasMapping books) (pyNormalize q) with
    | some b => (some b, 1)
    | none => (none, 0)

/-- ExactBookMatcher.match from src/preprocessing/book_resolver.py, which ends in
the statement written as a conditional expression followed by a comma and 0.0:
Python parses it as a pair whose first element is the whole conditional, so on
a hit the function returns ((book, 1.0), 0.0) instead of (book, 1.0). The
first component of the embedded result is that first tuple element. -/
def exactMatchParen (books : List Book) (q : String) : Option (Book × ℚ) × ℚ :=
  if q = "" then (none, 0)
  else
    match dictGet (buildAliasMapping books) (pyNormalize q) with
    | some b => (some (b, 1), 0)
    | none => (none, 0)

/-! ## Fuzzy similarity: rapidfuzz fuzz.ratio via longest common subsequence -/

/-- Longest common subsequence length, with explicit fuel so the recursion is
structural (the kernel can then evaluate it); the fuel is spent at least once
per character, so combined length suffices. -/
def lcsF : Nat → List Char → List Char → Nat
  | 0, _, _ => 0
  | _ + 1, [], _ => 0
  | _ + 1, _ :: _, [] => 0
  | fuel + 1, a :: as, b :: bs =>
    if a = b then 1 + lcsF fuel as bs
    else max (lcsF fuel (a :: as) bs) (lcsF fuel as (b :: bs))

/-- Longest common subsequence length of two character lists. -/
def lcs (as bs : List Char) : Nat := lcsF (as.length + bs.length) as bs

/-- Normalized indel similarity scaled to 0..100, the documented semantics of
rapidfuzz fuzz.ratio: 100 * (1 - indel_distance / (len1 + len2)), where the
indel distance is len1 + len2 - 2 * lcs; two empty strings score 100. The
fraction is built with mkRat, which the kernel can evaluate; it equals the
plain division (see simScore_eq_div). -/
def simScore (a b : String) : ℚ :=
  if a.data.length + b.data.length = 0 then 100
  else mkRat (200 * (lcs a.data b.data : Int)) (a.data.length + b.data.length)

/-- Division of a score by 100 in a kernel-computable form; equals s / 100
(see qDiv100_eq). -/
def qDiv100 (s : ℚ) : ℚ := mkRat s.num (s.den * 100)

/-- One scan step of rapidfuzz process.extractOne: ignore a choice scoring
below the cutoff, otherwise keep the incumbent unless strictly beaten. -/
def extractStep (q : String) (cutoff : ℚ) (best : Option (String × ℚ)) (v : String) :
    Option (String × ℚ) :=
  if simScore q v < cutoff then best
  else
    match best with
    | none => some (v, simScore q v)
    | some p => if p.2 < simScore q v then some (v, simScore q v) else best

/-- rapidfuzz process.extractOne with a score cutoff: scan the choices in
order, ignore scores below the cutoff, keep the first best (replace only on a
strictly greater score); return the choice and its score, or None. -/
def extractOne (q : String) (choices : List String) (cutoff : ℚ) : Option (String × ℚ) :=
  choices.foldl (extractStep q cutoff) none

/-! ## Fuzzy matcher (src/extraction/fuzzy_matcher.py) -/

/-- FuzzyBookMatcher.match: on empty query (None, 0.0); otherwise normalize,
run extractOne over the variation keys with the similarity threshold as
cutoff; on a hit map the winning variation back to its book and return it
with confidence score/100, else (None, 0.0). -/
def fuzzyMatch (books : List Book) (threshold : ℚ) (q : String) : Option Book × ℚ :=
  if q = "" then (none, 0)
  else
    match extractOne (pyNormalize q) (dictKeys (buildAliasMapping books)) threshold with
    | none => (none, 0)
    | some (v, s) =>
      match dictGet (buildAliasMapping books) v with
      | some b => (some b, qDiv100 s)
      | none => (none, 0)

/-! ## Resolver (src/preprocessing/resolution/book_resolver.py) -/

/-- BookResolver.resolve: try the exact matcher, then the fuzzy matcher; on
the first truthy book label the method exact when the confidence equals 1.0
and fuzzy otherwise; when both miss return (None, failed). The stats
counters are diagnostic telemetry that never affects the returned value and
are not embedded. -/
def resolverResolve (books : List Book) (threshold : ℚ) (q : String) : Option Book × String :=
  match exactMatch books q with
  | (some b, c) => (some b, if c = 1 then "exact" else "fuzzy")
  | (none, _) =>
    match fuzzyMatch books threshold q with
    | (some b, c) => (some b, if c = 1 then "exact" else "fuzzy")
    | (none, _) => (none, "failed")

/-! ## Normalize entry point (src/preprocessing/normalization/bible_reference_normalizer.py) -/

/-- Pre-extracted candidate shape consumed by BibleReferenceNormalizer.normalize:
a dict with book_text, start_chapter, end_chapter, raw_text, and optional
confidence and source keys (read with .get defaults). -/
structure Candidate where
  book_text : String
  start_chapter : Int
  end_chapter : Int
  raw_text : String
  confidence : Option ℚ
  source : Option String
deriving DecidableEq, Repr

/-- Output record appended by BibleReferenceNormalizer.normalize. -/
structure NormRef where
  book : String
  book_id : Nat
  testament : String
  start_chapter : Int
  end_chapter : Int
  chapters : List Int
  raw_text : String
  normalized_text : String
  is_valid : Bool
  confidence : ℚ
  source : String
deriving DecidableEq, Repr

/-- Record built for one accepted candidate in normalize: note raw_text is set
from the candidate's book_text field, normalized_text is always the dashed
form, and confidence and source default to 1.0 and rule. -/
def mkNormRef (b : Book) (c : Candidate) : NormRef :=
  { book := b.name
    book_id := b.id
    testament := b.testament
    start_chapter := c.start_chapter
    end_chapter := c.end_chapter
    chapters := chaptersList c.start_chapter c.end_chapter
    raw_text := c.book_text
    normalized_text := b.name ++ " " ++ toString c.start_chapter ++ "-" ++ toString c.end_chapter
    is_valid := validate_chapters b.chapters c.start_chapter c.end_chapter
    confidence := c.confidence.getD 1
    source := c.source.getD "rule" }

/-- Body of the normalize loop for a single candidate: resolve the book text
(exact-then-fuzzy resolver, threshold 80); a falsy book skips the candidate
(continue), otherwise validate the chapters and append the record. -/
def normOne (books : List Book) (c : Candidate) : List NormRef :=
  match (resolverResolve books 80 c.book_text).1 with
  | none => []
  | some b => [mkNormRef b c]

/-- BibleReferenceNormalizer.normalize: loop over the candidates, skipping the
unresolvable ones and appending one record for each of the rest. -/
def normalizeCands (books : List Book) (cs : List Candidate) : List NormRef :=
  cs.flatMap (normOne books)

/-! ## Regular-expression engine for the pattern constructs the source uses

The five matcher patterns of BibleRegexBuilder.build_patterns and the three
patterns of the plain normalizer use only: case-insensitive literals,
character classes (digits, whitespace, ascii letters, the dash family, the
word class of the loose book group), greedy star/plus/option, an ordered
alternation, one lookahead, and one negative lookbehind on a single
character. The embedding is a standard backtracking matcher in
continuation-passing style with explicit fuel; alternatives and shorter
repetitions are tried exactly in Python's backtracking order, so the first
success reported equals the match Python's re module reports. -/

/-- Character classes appearing in the source patterns. -/
inductive CC where
  | digit
  | space
  | alpha
  | dashes
  | dotc
  | wordc
deriving DecidableEq, Repr

/-- Membership of a character in a class: digit is \d (ascii), space is \s
(ascii), alpha is [A-Za-z], dashes is [-–—], dotc is the literal dot, wordc is
the loose book-token class [a-zA-Z-]. -/
def CC.mem : CC → Char → Bool
  | .digit, c => c.isDigit
  | .space, c => isPySpace c
  | .alpha, c => ('a' ≤ c && c ≤ 'z') || ('A' ≤ c && c ≤ 'Z')
  | .dashes, c => c = '-' || c = '–' || c = '—'
  | .dotc, c => c = '.'
  | .wordc, c => ('a' ≤ c && c ≤ 'z') || ('A' ≤ c && c ≤ 'Z') || c = '-'

/-- Regular-expression syntax restricted to the constructs the source uses. -/
inductive RE where
  | eps
  | one (c : CC)
  | lit (s : String)
  | seq (a b : RE)
  | alt (a b : RE)
  | star (r : RE)
  | opt (r : RE)
  | look (r : RE)
  | nlb (c : CC)
  | grp (n : Nat) (r : RE)
deriving Repr

/-- Greedy plus, as in \d+ and \s+. -/
def rplus (r : RE) : RE := .seq r (.star r)

/-- Bounded repetition {1,2}, greedy, over one class (the dash family). -/
def rep12 (c : CC) : RE := .seq (.one c) (.opt (.one c))

/-- Case-insensitive literal match of a character list at a position. -/
def litAt (t : List Char) : Nat → List Char → Bool
  | _, [] => true
  | i, c :: cs =>
    match t.get? i with
    | some ch => ch.toLower = c.toLower && litAt t (i + 1) cs
    | none => false

/-- Captured groups: group number with half-open character offsets. -/
abbrev Caps := List (Nat × Nat × Nat)

/-- Backtracking matcher in continuation-passing style. The continuation
receives the position after the current node and the captures so far; greedy
nodes try the longer consumption first and fall back, alternation tries the
left branch first, mirroring Python's re backtracking order. Fuel bounds the
recursion depth and is chosen generously by the callers. -/
def reRun (t : List Char) : Nat → RE → Nat → (Nat → Caps → Option (Nat × Caps)) → Caps →
    Option (Nat × Caps)
  | 0, _, _, _, _ => none
  | fuel + 1, re, i, k, g =>
    match re with
    | .eps => k i g
    | .one c =>
      match t.get? i with
      | some ch => if c.mem ch then k (i + 1) g else none
      | none => none
    | .lit s => if litAt t i s.data then k (i + s.data.length) g else none
    | .seq a b => reRun t fuel a i (fun j g2 => reRun t fuel b j k g2) g
    | .alt a b =>
      match reRun t fuel a i k g with
      | some r => some r
      | none => reRun t fuel b i k g
    | .star r =>
      match reRun t fuel r i (fun j g2 => if j = i then none else reRun t fuel (.star r) j k g2) g with
      | some res => some res
      | none => k i g
    | .opt r =>
      match reRun t fuel r i k g with
      | some res => some res
      | none => k i g
    | .look r =>
      match reRun t fuel r i (fun j g2 => some (j, g2)) g with
      | some _ => k i g
      | none => none
    | .nlb c =>
      if i = 0 then k i g
      else
        match t.get? (i - 1) with
        | some ch => if c.mem ch then none else k i g
        | none => k i g
    | .grp n r => reRun t fuel r i (fun j g2 => k j ((n, i, j) :: g2)) g

/-- One anchored match attempt at a position, with the identity continuation. -/
def runAt (t : List Char) (r : RE) (i : Nat) : Option (Nat × Caps) :=
  reRun t (t.length + 200) r i (fun j g => some (j, g)) []

/-- One regex match: overall half-open span plus the captured groups. -/
structure RMatch where
  s : Nat
  e : Nat
  caps : Caps
deriving DecidableEq, Repr

/-- Scanner loop of re.finditer: try each start position left to right; after
a match continue at its end (or one past it, were it empty). -/
def finditerGo (t : List Char) (r : RE) : Nat → Nat → List RMatch
  | 0, _ => []
  | fuel + 1, i =>
    if i > t.length then []
    else
      match runAt t r i with
      | some (e, g) => ⟨i, e, g⟩ :: finditerGo t r fuel (if i < e then e else i + 1)
      | none => finditerGo t r fuel (i + 1)

/-- re.finditer: all non-overlapping matches of one pattern, left to right. -/
def finditer (t : List Char) (r : RE) : List RMatch :=
  finditerGo t r (t.length + 1) 0

/-- Group span accessor, as match.start(n) and match.end(n). -/
def capOf (m : RMatch) (n : Nat) : Nat × Nat :=
  match m.caps.find? (fun c => c.1 = n) with
  | some c => (c.2.1, c.2.2)
  | none => (0, 0)

/-- Substring of the scanned text between two offsets, as text slicing on a
match group. -/
def sliceStr (t : List Char) (a b : Nat) : String := ⟨(t.drop a).take (b - a)⟩

/-! ## The five matcher patterns (BibleRegexBuilder.build_patterns) -/

/-- Ordered alternation of case-insensitive literals, as the joined alias
alternation in the book pattern. -/
def altLits : List String → RE
  | [] => .eps
  | [s] => .lit s
  | s :: rest => .alt (.lit s) (altLits rest)

/-- Modelled from the spec: the alias list fed to build_patterns comes from
the catalog data file that is not under src/; the source sorts the deduplicated
aliases by decreasing length before joining, so the modelled catalog aliases
appear here longest first. -/
def aliasesSorted : List String := ["Kejadian", "Keluaran", "Kej", "Kel"]

/-- Book token of build_patterns: negative lookbehind for an ascii letter, the
alias alternation as capture group n, an optional trailing dot, and a
lookahead requiring optional whitespace then a digit. -/
def bookRE (n : Nat) : RE :=
  .seq (.nlb .alpha)
    (.seq (.grp n (altLits aliasesSorted))
      (.seq (.opt (.one .dotc))
        (.look (.seq (.star (.one .space)) (.one .digit)))))

/-- Whitespace star \s*. -/
def reSpaces : RE := .star (.one .space)

/-- Whitespace plus \s+. -/
def reSpaces1 : RE := rplus (.one .space)

/-- Chapter capture group (\d+). -/
def chapRE (n : Nat) : RE := .grp n (rplus (.one .digit))

/-- Dash range separator \s*[-–—]{1,2}\s*. -/
def reDash : RE := .seq reSpaces (.seq (rep12 .dashes) reSpaces)

/-- Worded range separator \s+(?:sampai|sampe|hingga|to)\s+. -/
def reWords : RE :=
  .seq reSpaces1
    (.seq (.alt (.lit "sampai") (.alt (.lit "sampe") (.alt (.lit "hingga") (.lit "to"))))
      reSpaces1)

/-- Right-nested sequence of a pattern list. -/
def seqL : List RE → RE
  | [] => .eps
  | [r] => r
  | r :: rs => .seq r (seqL rs)

/-- Cross-book dash range pattern. -/
def pattern1 : RE := seqL [bookRE 1, reSpaces, chapRE 2, reDash, bookRE 3, reSpaces, chapRE 4]

/-- Cross-book worded range pattern. -/
def pattern2 : RE := seqL [bookRE 1, reSpaces, chapRE 2, reWords, bookRE 3, reSpaces, chapRE 4]

/-- Single-book dash range pattern. -/
def pattern3 : RE := seqL [bookRE 1, reSpaces, chapRE 2, reDash, chapRE 3]

/-- Single-book worded range pattern. -/
def pattern4 : RE := seqL [bookRE 1, reSpaces, chapRE 2, reWords, chapRE 3]

/-- Single chapter pattern. -/
def pattern5 : RE := seqL [bookRE 1, reSpaces, chapRE 2]

/-- The ordered, most-specific-first pattern list of build_patterns. -/
def thePatterns : List RE := [pattern1, pattern2, pattern3, pattern4, pattern5]

/-! ## Priority non-overlapping selection (get_non_overlapping_matches) -/

/-- Overlap test of the source: a candidate span [s, e) overlaps the accepted
set when for some accepted (a, b) it is not the case that e <= a or b <= s. -/
def overlapsB (s e : Nat) (acc : List (Nat × Nat)) : Bool :=
  acc.any (fun r => !(decide (e ≤ r.1) || decide (r.2 ≤ s)))

/-- Selection loop of get_non_overlapping_matches over an already flattened
candidate stream (pattern-major, left-to-right inside a pattern): skip a
candidate overlapping the accepted set, otherwise accept it and add its span. -/
def selectAux : List RMatch → List (Nat × Nat) → List RMatch
  | [], _ => []
  | m :: ms, acc =>
    if overlapsB m.s m.e acc then selectAux ms acc
    else m :: selectAux ms ((m.s, m.e) :: acc)

/-- get_non_overlapping_matches: run every pattern in priority order, scan
each left to right, and keep the non-overlapping ones. -/
def nonOverlappingMatches (t : List Char) : List RMatch :=
  selectAux (thePatterns.flatMap (finditer t)) []

/-! ## extract_structured and extract_ner_spans (BibleReferenceExtractor) -/

/-- Structured reference dict produced by extract_structured. -/
structure RawRef where
  book_start : String
  start_chapter : Nat
  book_end : String
  end_chapter : Nat
  raw_text : String
deriving DecidableEq, Repr

/-- Text of one capture group of a match, sliced from the scanned text. -/
def capText (t : List Char) (m : RMatch) (n : Nat) : String :=
  sliceStr t (capOf m n).1 (capOf m n).2

/-- Group interpretation of extract_structured: two groups give a single
chapter, three a single-book range, four a cross-book range; any other arity
appends nothing. -/
def interpretMatch (t : List Char) (m : RMatch) : Option RawRef :=
  if m.caps.length = 2 then
    some ⟨pyStrip (capText t m 1), digitsToNat (capText t m 2),
          pyStrip (capText t m 1), digitsToNat (capText t m 2), sliceStr t m.s m.e⟩
  else if m.caps.length = 3 then
    some ⟨pyStrip (capText t m 1), digitsToNat (capText t m 2),
          pyStrip (capText t m 1), digitsToNat (capText t m 3), sliceStr t m.s m.e⟩
  else if m.caps.length = 4 then
    some ⟨pyStrip (capText t m 1), digitsToNat (capText t m 2),
          pyStrip (capText t m 3), digitsToNat (capText t m 4), sliceStr t m.s m.e⟩
  else none

/-- BibleReferenceExtractor.extract_structured (and the annotator's extract). -/
def extract_structured (s : String) : List RawRef :=
  (nonOverlappingMatches s.data).filterMap (interpretMatch s.data)

/-- One NER span dict: offsets, BOOK or CHAPTER label, group text. -/
structure NerSpan where
  s : Nat
  e : Nat
  label : String
  text : String
deriving DecidableEq, Repr

/-- NER span for one group of a match. -/
def nerOfCap (t : List Char) (m : RMatch) (n : Nat) (label : String) : NerSpan :=
  ⟨(capOf m n).1, (capOf m n).2, label, capText t m n⟩

/-- Spans emitted for one match by extract_ner_spans, by group arity. -/
def nerOfMatch (t : List Char) (m : RMatch) : List NerSpan :=
  if m.caps.length = 2 then
    [nerOfCap t m 1 "BOOK", nerOfCap t m 2 "CHAPTER"]
  else if m.caps.length = 3 then
    [nerOfCap t m 1 "BOOK", nerOfCap t m 2 "CHAPTER", nerOfCap t m 3 "CHAPTER"]
  else if m.caps.length = 4 then
    [nerOfCap t m 1 "BOOK", nerOfCap t m 2 "CHAPTER",
     nerOfCap t m 3 "BOOK", nerOfCap t m 4 "CHAPTER"]
  else []

/-- BibleReferenceExtractor.extract_ner_spans. -/
def extract_ner_spans (s : String) : List NerSpan :=
  (nonOverlappingMatches s.data).flatMap (nerOfMatch s.data)

/-! ## Plain normalizer (src/preprocessing/bible_reference_normalizer.py) -/

/-- Alias-map entries of the plain normalizer's build_alias_mapping: aliases
first, then the name (same final dict as name-first since all keys of one book
map to the same record). -/
def insertBookN (m : List (String × Book)) (b : Book) : List (String × Book) :=
  dictInsert (b.aliases.foldl (fun m a => dictInsert m (lowerStr a) b) m) (lowerStr b.name) b

/-- Alias map of the plain normalizer. -/
def aliasMappingN (books : List Book) : List (String × Book) :=
  books.foldl insertBookN []

/-- get_book_data: collapse and lower the matched abbreviation, look it up. -/
def getBookData (books : List Book) (abbr : String) : Option Book :=
  dictGet (aliasMappingN books) (pyNormalize abbr)

/-- Loose book token group of the chapter patterns:
(\d?\s?[a-zA-Z-]+(?:\s+[a-zA-Z-]+)*). -/
def looseBookRE (n : Nat) : RE :=
  .grp n (seqL [.opt (.one .digit), .opt (.one .space), rplus (.one .wordc),
                .star (.seq (rplus (.one .space)) (rplus (.one .wordc)))])

/-- Chapter pattern 1 of the plain normalizer: dash range with a plain dash. -/
def npattern1 : RE :=
  seqL [looseBookRE 1, reSpaces1, chapRE 2, reSpaces, .lit "-", reSpaces, chapRE 3]

/-- Chapter pattern 2: worded range (sampai|hingga|to). -/
def npattern2 : RE :=
  seqL [looseBookRE 1, reSpaces1, chapRE 2, reSpaces1,
        .alt (.lit "sampai") (.alt (.lit "hingga") (.lit "to")), reSpaces1, chapRE 3]

/-- Chapter pattern 3: single chapter. -/
def npattern3 : RE := seqL [looseBookRE 1, reSpaces1, chapRE 2]

/-- Ordered chapter pattern list of the plain normalizer. -/
def nPatterns : List RE := [npattern1, npattern2, npattern3]

/-- Reference record of extract_all_references. -/
structure NRef where
  book : String
  book_id : Nat
  testament : String
  start_chapter : Int
  end_chapter : Int
  chapters : List Int
  raw_text : String
  normalized_text : String
  is_valid : Bool
deriving DecidableEq, Repr

/-- Python substring containment needle in hay. -/
def startsWithL : List Char → List Char → Bool
  | [], _ => true
  | _ :: _, [] => false
  | n :: ns, h :: hs => n = h && startsWithL ns hs

/-- Python substring containment needle in hay (the in operator on str). -/
def containsSub : List Char → List Char → Bool
  | needle, [] => needle.isEmpty
  | needle, h :: hs => startsWithL needle (h :: hs) || containsSub needle hs

/-- Record built in extract_all_references for a three-group (range) match. -/
def mkNRefRange (b : Book) (sc ec : Int) (raw : String) : NRef :=
  { book := b.name
    book_id := b.id
    testament := b.testament
    start_chapter := sc
    end_chapter := ec
    chapters := chaptersList sc ec
    raw_text := raw
    normalized_text := b.name ++ " " ++ toString sc ++ "-" ++ toString ec
    is_valid := validate_chapters b.chapters sc ec }

/-- Record built in extract_all_references for a two-group (single chapter)
match. -/
def mkNRefSingle (b : Book) (ch : Int) (raw : String) : NRef :=
  { book := b.name
    book_id := b.id
    testament := b.testament
    start_chapter := ch
    end_chapter := ch
    chapters := [ch]
    raw_text := raw
    normalized_text := b.name ++ " " ++ toString ch
    is_valid := validate_chapters b.chapters ch ch }

/-- Loop body of extract_all_references for one match (the text was lowered by
the caller): skip the match when its raw text is a substring of an earlier
reference's raw text; otherwise interpret the groups by arity, drop the match
when the book does not resolve, and otherwise append the record (still
appended, flagged, when the chapters fail validation). -/
def stepRef (books : List Book) (t : List Char) (refs : List NRef) (m : RMatch) : List NRef :=
  let raw := sliceStr t m.s m.e
  if refs.any (fun r => containsSub raw.data r.raw_text.data) then refs
  else if m.caps.length = 3 then
    match getBookData books (capText t m 1) with
    | some b =>
      refs ++ [mkNRefRange b (digitsToNat (capText t m 2) : Int) (digitsToNat (capText t m 3) : Int) raw]
    | none => refs
  else if m.caps.length = 2 then
    match getBookData books (capText t m 1) with
    | some b => refs ++ [mkNRefSingle b (digitsToNat (capText t m 2) : Int) raw]
    | none => refs
  else refs

/-- BibleReferenceNormalizer.extract_all_references: lower the text, run the
three chapter patterns in order, fold every match through stepRef. -/
def extract_all_references (books : List Book) (s : String) : List NRef :=
  let t := lowerChars s.data
  nPatterns.foldl (fun refs p => (finditer t p).foldl (stepRef books t) refs) []

/-! ## Syntactic pattern predicates used by the matcher invariants -/

/-- Patterns that consume at least one character on every successful match. -/
def consumesPos : RE → Bool
  | .eps => false
  | .one _ => true
  | .lit s => !s.data.isEmpty
  | .seq a b => consumesPos a || consumesPos b
  | .alt a b => consumesPos a && consumesPos b
  | .star _ => false
  | .opt _ => false
  | .look _ => false
  | .nlb _ => false
  | .grp _ r => consumesPos r

/-- Patterns producing no captures at all (lookaheads discard theirs). -/
def gFree : RE → Bool
  | .eps => true
  | .one _ => true
  | .lit _ => true
  | .seq a b => gFree a && gFree b
  | .alt a b => gFree a && gFree b
  | .star r => gFree r
  | .opt r => gFree r
  | .look _ => true
  | .nlb _ => true
  | .grp _ _ => false

/-- Patterns whose capture groups are not nested inside one another. -/
def flatG : RE → Bool
  | .eps => true
  | .one _ => true
  | .lit _ => true
  | .seq a b => flatG a && flatG b
  | .alt a b => flatG a && flatG b
  | .star r => flatG r
  | .opt r => flatG r
  | .look _ => true
  | .nlb _ => true
  | .grp _ r => gFree r

/-- Sequential chain of captures in chronological order between two positions:
each capture is a well-formed interval starting no earlier than the end of the
previous one. -/
def capChain (i : Nat) : Caps → Nat → Prop
  | [], j => i ≤ j
  | c :: cs, j => i ≤ c.2.1 ∧ c.2.1 ≤ c.2.2 ∧ capChain c.2.2 cs j

/-- Half-open intervals with empty intersection as subsets of the text
positions. -/
def ivDisj (p q : Nat × Nat) : Prop :=
  ∀ x : Nat, ¬(p.1 ≤ x ∧ x < p.2 ∧ q.1 ≤ x ∧ x < q.2)

/-- Span of a match as a half-open interval. -/
def spanOf (m : RMatch) : Nat × Nat := (m.s, m.e)

/-- Concrete scenario text of the pattern-priority claim. -/
def c2text : String := "Kejadian 1-3 sampai Keluaran 2"

/-- Reference record extracted from the canonical round-trip text. -/
def c9ref : NRef :=
  ⟨"Kejadian", 1, "old", 1, 3, [1, 2, 3], "kejadian 1-3", "Kejadian 1-3", true⟩

/-- Candidate with equal start and end chapters, exercising the degenerate
range rendering of normalize. -/
def c7cand : Candidate := ⟨"kejadian", 2, 2, "kejadian 2", none, none⟩

/-- A book declares an alias key when its lowered name or one of its lowered
aliases equals the key. -/
def declaresKey (b : Book) (k : String) : Bool :=
  lowerStr b.name = k || b.aliases.any (fun a => lowerStr a = k)

/-- Catalog record colliding on the alias Shared with bookBeta. -/
def bookAlpha : Book := ⟨7, "Alpha", ["Shared"], "old", 5⟩

/-- Catalog record colliding on the alias Shared with bookAlpha. -/
def bookBeta : Book := ⟨8, "Beta", ["Shared"], "new", 3⟩

/-! ## Theorems -/

/-- C3: BibleReferenceValidator.validate_chapters returns true exactly when
1 <= start, 1 <= end, start <= end and end <= the book's chapter count; being
a total Lean function over the integers it returns false, never an error, on
every out-of-range input, including start = 0, end = count + 1 and
start > end. -/
theorem c3_validate_chapters_iff (b : Book) (s e : Int) :
    validate_chapters b.chapters s e = true ↔
      1 ≤ s ∧ 1 ≤ e ∧ s ≤ e ∧ e ≤ b.chapters := by
  unfold validate_chapters
  split_ifs with h1 h2 h3 <;> simp_all <;> omega

/-- C4: the ExactBookMatcher.match of src/src/preprocessing/book_resolver.py
evaluates, on the known alias kejadian, to ((record, 1.0), 0.0) — the
conditional-plus-comma return wraps the record in a tuple — while the
ExactBookMatcher.match of src/src/preprocessing/resolution/exact_matcher.py
returns (record, 1.0) and the resolver built on it returns the record with
method exact, short-circuiting before the fuzzy stage. -/
theorem c4_exact_match_paren_bug :
    exactMatchParen catalogBooks "kejadian" = (some (kejadian, 1), 0)
    ∧ exactMatch catalogBooks "kejadian" = (some kejadian, 1)
    ∧ resolverResolve catalogBooks 80 "kejadian" = (some kejadian, "exact") := by
  refine ⟨by decide, by decide, by decide⟩

/-- C2 counterexample: on the text Kejadian 1-3 sampai Keluaran 2 the
extractor returns two references, not one, so the cross-book worded-range
pattern did not win. -/
theorem c2_counterexample : (extract_structured c2text).length = 2 := by decide

/-- C2 (amended): on Kejadian 1-3 sampai Keluaran 2 the cross-book worded
pattern cannot match (the dash-range suffix -3 stands between the first
chapter number and sampai), so extraction returns exactly two fragments: the
single-book dash range Kejadian 1-3 and the single chapter Keluaran 2. -/
theorem c2_two_fragments :
    extract_structured c2text =
      [⟨"Kejadian", 1, "Kejadian", 3, "Kejadian 1-3"⟩,
       ⟨"Keluaran", 2, "Keluaran", 2, "Keluaran 2"⟩] := by decide

/-- C9: extracting the canonical single reference Kejadian 1-3, rendering it
back through normalized_text, and extracting again reproduces the same
(book_id, start_chapter, end_chapter) triple — indeed the very same record. -/
theorem c9_roundtrip :
    extract_all_references catalogBooks "Kejadian 1-3" = [c9ref]
    ∧ extract_all_references catalogBooks c9ref.normalized_text = [c9ref]
    ∧ (c9ref.book_id, c9ref.start_chapter, c9ref.end_chapter) = (1, 1, 3) := by
  refine ⟨by decide, by decide, by decide⟩

/-- C7 counterexample: a candidate with start_chapter = end_chapter = 2 that
resolves to Kejadian is emitted by normalize with normalized_text
Kejadian 2-2, not the single-chapter form Kejadian 2 the claim requires when
start equals end. -/
theorem c7_counterexample :
    (normalizeCands catalogBooks [c7cand]).map (fun r => r.normalized_text) = ["Kejadian 2-2"]
    ∧ c7cand.start_chapter = c7cand.end_chapter
    ∧ ("Kejadian 2-2" : String) ≠ "Kejadian 2" := by
  refine ⟨by decide, by decide, by decide⟩

/-- C8 counterexample: two distinct records both declaring the alias Shared
are loaded without any failure — buildAliasMapping is a total function — and
the shared key silently maps to the later record, shadowing the earlier one,
instead of construction failing loudly. -/
theorem c8_counterexample :
    dictGet (buildAliasMapping [bookAlpha, bookBeta]) "shared" = some bookBeta
    ∧ declaresKey bookAlpha "shared" = true
    ∧ declaresKey bookBeta "shared" = true
    ∧ bookAlpha ≠ bookBeta := by
  refine ⟨by decide, by decide, by decide, by decide⟩

/-- Lookup after one dict assignment: the assigned key now maps to the new
value and every other key is untouched. -/
theorem dictGet_insert (m : List (String × Book)) (k k' : String) (v : Book) :
    dictGet (dictInsert m k v) k' = if k' = k then some v else dictGet m k' := by
  induction m with
  | nil =>
    by_cases h : k' = k
    · simp [dictInsert, dictGet, List.find?, h]
    · have h2 : ¬ k = k' := fun hh => h hh.symm
      simp [dictInsert, dictGet, List.find?, h, h2]
  | cons p ps ih =>
    by_cases hpk : p.1 = k
    · by_cases h : k' = k
      · simp [dictInsert, dictGet, List.find?, hpk, h]
      · have h2 : ¬ k = k' := fun hh => h hh.symm
        have hp : ¬ p.1 = k' := by rw [hpk]; exact h2
        simp [dictInsert, dictGet, List.find?, hpk, h, h2, hp]
    · by_cases hp : p.1 = k'
      · have h : ¬ k' = k := fun hh => hpk (hp.trans hh)
        simp [dictInsert, dictGet, List.find?, hpk, hp, h]
      · simp only [dictInsert, hpk, if_neg hpk, dictGet, List.find?] at ih ⊢
        simpa [hp, dictGet] using ih

/-- Alias entries of one book: after inserting a book's name and aliases, a
declared key maps to that book and other keys are untouched. -/
theorem insertBook_get (m : List (String × Book)) (b : Book) (k : String) :
    dictGet (insertBook m b) k = if declaresKey b k then some b else dictGet m k := by
  have aux : ∀ (as : List String) (m : List (String × Book)),
      dictGet (as.foldl (fun m a => dictInsert m (lowerStr a) b) m) k =
        if as.any (fun a => lowerStr a = k) then some b else dictGet m k := by
    intro as
    induction as with
    | nil => intro m; simp
    | cons a as ih =>
      intro m
      rw [List.foldl_cons, ih]
      by_cases hk : k = lowerStr a
      · by_cases ha : as.any (fun a => lowerStr a = k) = true <;>
          simp [ha, hk, dictGet_insert]
      · have hka : ¬ lowerStr a = k := fun hh => hk hh.symm
        by_cases ha : as.any (fun a => lowerStr a = k) = true <;>
          simp [ha, hk, hka, dictGet_insert]
  unfold insertBook declaresKey
  rw [aux, dictGet_insert]
  by_cases h1 : b.aliases.any (fun a => lowerStr a = k) = true
  · simp [h1]
  · by_cases h2 : k = lowerStr b.name
    · simp [h1, h2]
    · have h2a : ¬ lowerStr b.name = k := fun hh => h2 hh.symm
      simp [h1, h2, h2a]

/-- C8 (amended): catalog construction never fails; when several records
declare the same normalized alias key the later record in load order silently
overwrites the earlier ones, so after construction the key maps to the last
record declaring it (and every key maps to exactly one record, the map being
a function). -/
theorem c8_alias_last_record_wins (books : List Book) (k : String) :
    dictGet (buildAliasMapping books) k =
      books.foldl (fun acc b => if declaresKey b k then some b else acc) none := by
  have aux : ∀ (bs : List Book) (m : List (String × Book)),
      dictGet (bs.foldl insertBook m) k =
        bs.foldl (fun acc b => if declaresKey b k then some b else acc) (dictGet m k) := by
    intro bs
    induction bs with
    | nil => intro m; rfl
    | cons b bs ih =>
      intro m
      rw [List.foldl_cons, ih, List.foldl_cons, insertBook_get]
  have h := aux books []
  simpa [buildAliasMapping, dictGet] using h

/-- Emitted record of the normalize path for a resolvable candidate. -/
theorem normOne_resolved (books : List Book) (c : Candidate) (b : Book)
    (h : (resolverResolve books 80 c.book_text).1 = some b) :
    normOne books c = [mkNormRef b c] := by
  unfold normOne
  cases hr : (resolverResolve books 80 c.book_text).1 with
  | none => rw [hr] at h; cases h
  | some b' => rw [hr] at h; cases h; rfl

/-- C6: a candidate is excluded from normalize's output exactly when its book
text fails to resolve; a resolvable candidate is emitted even when its
chapter bounds fail validation, with is_valid recording the validation
verdict; one candidate never aborts the rest (the output over a concatenation
is the concatenation of outputs). On the rule-based extract_all_references
path likewise: a match that passes the duplicate filter is dropped exactly
when its book text does not resolve, and a resolvable match with invalid
chapter bounds is still appended, flagged by is_valid. -/
theorem c6_emission_policy :
    (∀ (books : List Book) (c : Candidate),
       normOne books c = [] ↔ (resolverResolve books 80 c.book_text).1 = none)
    ∧ (∀ (books : List Book) (c : Candidate) (b : Book),
         (resolverResolve books 80 c.book_text).1 = some b →
         normOne books c = [mkNormRef b c]
         ∧ (mkNormRef b c).is_valid =
             validate_chapters b.chapters c.start_chapter c.end_chapter)
    ∧ (∀ (books : List Book) (cs cs' : List Candidate),
         normalizeCands books (cs ++ cs') = normalizeCands books cs ++ normalizeCands books cs')
    ∧ (∀ (books : List Book) (t : List Char) (refs : List NRef) (m : RMatch),
         refs.any (fun r => containsSub (sliceStr t m.s m.e).data r.raw_text.data) = false →
         (m.caps.length = 3 ∨ m.caps.length = 2) →
         (stepRef books t refs m = refs ↔ getBookData books (capText t m 1) = none))
    ∧ (∀ (books : List Book) (t : List Char) (refs : List NRef) (m : RMatch) (b : Book),
         refs.any (fun r => containsSub (sliceStr t m.s m.e).data r.raw_text.data) = false →
         m.caps.length = 3 →
         getBookData books (capText t m 1) = some b →
         stepRef books t refs m =
           refs ++ [mkNRefRange b (digitsToNat (capText t m 2) : Int)
                      (digitsToNat (capText t m 3) : Int) (sliceStr t m.s m.e)]
         ∧ (mkNRefRange b (digitsToNat (capText t m 2) : Int)
              (digitsToNat (capText t m 3) : Int) (sliceStr t m.s m.e)).is_valid =
             validate_chapters b.chapters (digitsToNat (capText t m 2) : Int)
               (digitsToNat (capText t m 3) : Int)) := by
  refine ⟨?_, ?_, ?_, ?_, ?_⟩
  · intro books c
    unfold normOne
    cases hr : (resolverResolve books 80 c.book_text).1 <;> simp [hr]
  · intro books c b h
    exact ⟨normOne_resolved books c b h, rfl⟩
  · intro books cs cs'
    unfold normalizeCands
    exact List.flatMap_append ..
  · intro books t refs m hdup har
    unfold stepRef
    rcases har with h3 | h2
    · rw [if_neg (by simp [hdup]), if_pos h3]
      cases hb : getBookData books (capText t m 1) <;> simp [hb]
    · have h3 : ¬ m.caps.length = 3 := by omega
      rw [if_neg (by simp [hdup]), if_neg h3, if_pos h2]
      cases hb : getBookData books (capText t m 1) <;> simp [hb]
  · intro books t refs m b hdup h3 hb
    unfold stepRef
    rw [if_neg (by simp [hdup]), if_pos h3, hb]
    exact ⟨rfl, rfl⟩

/-- C6 witness: the policy evaluated at concrete inputs — the unresolvable
candidate Xyz is excluded, the resolvable but out-of-range candidate
kejadian 99-1 is still emitted with is_valid false, and a concrete arity-3
match with an unresolvable book group leaves the reference list unchanged. -/
theorem c6_emission_policy_witness :
    normOne catalogBooks ⟨"Xyz", 1, 2, "Xyz 1-2", none, none⟩ = []
    ∧ normOne catalogBooks ⟨"kejadian", 99, 1, "kejadian 99-1", none, none⟩ =
        [mkNormRef kejadian ⟨"kejadian", 99, 1, "kejadian 99-1", none, none⟩]
    ∧ (mkNormRef kejadian ⟨"kejadian", 99, 1, "kejadian 99-1", none, none⟩).is_valid = false
    ∧ stepRef catalogBooks "xyz 1-2".data [] ⟨0, 7, [(3, 6, 7), (2, 4, 5), (1, 0, 3)]⟩ = [] := by
  refine ⟨?_, ?_, ?_, ?_⟩
  · exact (c6_emission_policy.1 catalogBooks ⟨"Xyz", 1, 2, "Xyz 1-2", none, none⟩).mpr (by decide)
  · exact ((c6_emission_policy.2.1 catalogBooks ⟨"kejadian", 99, 1, "kejadian 99-1", none, none⟩
      kejadian (by decide)).1)
  · decide
  · exact (c6_emission_policy.2.2.2.1 catalogBooks "xyz 1-2".data []
      ⟨0, 7, [(3, 6, 7), (2, 4, 5), (1, 0, 3)]⟩ (by decide) (by decide)).mpr (by decide)

/-- C7 (amended): on the normalize path every emitted record's
normalized_text is the dashed form book name, start, dash, end — also when
start equals end; the single-chapter form appears only on the direct
extraction path, where a two-group match renders book name and chapter and a
three-group match renders the dashed form. -/
theorem c7_normalized_text_format :
    (∀ (books : List Book) (c : Candidate) (b : Book),
       (resolverResolve books 80 c.book_text).1 = some b →
       (normOne books c).map (fun r => r.normalized_text) =
         [b.name ++ " " ++ toString c.start_chapter ++ "-" ++ toString c.end_chapter])
    ∧ (∀ (books : List Book) (t : List Char) (refs : List NRef) (m : RMatch) (b : Book),
         refs.any (fun r => containsSub (sliceStr t m.s m.e).data r.raw_text.data) = false →
         m.caps.length = 3 →
         getBookData books (capText t m 1) = some b →
         (stepRef books t refs m).map (fun r => r.normalized_text) =
           refs.map (fun r => r.normalized_text) ++
             [b.name ++ " " ++ toString (digitsToNat (capText t m 2) : Int) ++ "-" ++
               toString (digitsToNat (capText t m 3) : Int)])
    ∧ (∀ (books : List Book) (t : List Char) (refs : List NRef) (m : RMatch) (b : Book),
         refs.any (fun r => containsSub (sliceStr t m.s m.e).data r.raw_text.data) = false →
         m.caps.length = 2 →
         getBookData books (capText t m 1) = some b →
         (stepRef books t refs m).map (fun r => r.normalized_text) =
           refs.map (fun r => r.normalized_text) ++
             [b.name ++ " " ++ toString (digitsToNat (capText t m 2) : Int)]) := by
  refine ⟨?_, ?_, ?_⟩
  · intro books c b h
    rw [normOne_resolved books c b h]
    rfl
  · intro books t refs m b hdup h3 hb
    unfold stepRef
    rw [if_neg (by simp [hdup]), if_pos h3, hb]
    simp [mkNRefRange]
  · intro books t refs m b hdup h2 hb
    have h3 : ¬ m.caps.length = 3 := by omega
    unfold stepRef
    rw [if_neg (by simp [hdup]), if_neg h3, if_pos h2, hb]
    simp [mkNRefSingle]

/-- C7 witness: the format theorem applied to the degenerate candidate
kejadian 2-2 on the normalize path and to concrete two- and three-group
matches on the extraction path. -/
theorem c7_normalized_text_format_witness :
    (normOne catalogBooks c7cand).map (fun r => r.normalized_text) = ["Kejadian 2-2"]
    ∧ (stepRef catalogBooks "kejadian 1-3".data [] ⟨0, 12, [(3, 11, 12), (2, 9, 10), (1, 0, 8)]⟩).map
        (fun r => r.normalized_text) = ["Kejadian 1-3"]
    ∧ (stepRef catalogBooks "kejadian 2".data [] ⟨0, 10, [(2, 9, 10), (1, 0, 8)]⟩).map
        (fun r => r.normalized_text) = ["Kejadian 2"] := by
  refine ⟨?_, ?_, ?_⟩
  · exact c7_normalized_text_format.1 catalogBooks c7cand kejadian (by decide)
  · exact c7_normalized_text_format.2.1 catalogBooks "kejadian 1-3".data []
      ⟨0, 12, [(3, 11, 12), (2, 9, 10), (1, 0, 8)]⟩ kejadian (by decide) (by decide) (by decide)
  · exact c7_normalized_text_format.2.2 catalogBooks "kejadian 2".data []
      ⟨0, 10, [(2, 9, 10), (1, 0, 8)]⟩ kejadian (by decide) (by decide) (by decide)

/-- C10: for every candidate normalize accepts, the emitted record's raw_text
is the candidate's book_text field (the candidate's own raw_text value is
never copied), and an omitted confidence or source defaults to 1.0 and rule,
while supplied values are passed through. -/
theorem c10_normalize_fields (books : List Book) (c : Candidate) (b : Book)
    (h : (resolverResolve books 80 c.book_text).1 = some b) :
    ∃ r, normOne books c = [r]
      ∧ r.raw_text = c.book_text
      ∧ r.confidence = c.confidence.getD 1
      ∧ r.source = c.source.getD "rule"
      ∧ (c.confidence = none → r.confidence = 1)
      ∧ (c.source = none → r.source = "rule") := by
  refine ⟨mkNormRef b c, normOne_resolved books c b h, rfl, rfl, rfl, ?_, ?_⟩
  · intro hc; simp [mkNormRef, hc]
  · intro hs; simp [mkNormRef, hs]

/-- C10 witness: the field theorem applied to a candidate with a raw_text
field differing from its book_text and with omitted confidence and source. -/
theorem c10_normalize_fields_witness :
    ∃ r, normOne catalogBooks c7cand = [r]
      ∧ r.raw_text = c7cand.book_text
      ∧ r.confidence = c7cand.confidence.getD 1
      ∧ r.source = c7cand.source.getD "rule"
      ∧ (c7cand.confidence = none → r.confidence = 1)
      ∧ (c7cand.source = none → r.source = "rule") :=
  c10_normalize_fields catalogBooks c7cand kejadian (by decide)

/-- A capture chain may start earlier. -/
theorem capChain_mono {i i' j : Nat} {cs : Caps} (h : i' ≤ i) (hc : capChain i cs j) :
    capChain i' cs j := by
  cases cs with
  | nil => exact le_trans h hc
  | cons c cs => exact ⟨le_trans h hc.1, hc.2.1, hc.2.2⟩

/-- Capture chains compose end to end. -/
theorem capChain_append {i m j : Nat} {xs ys : Caps} (h1 : capChain i xs m)
    (h2 : capChain m ys j) : capChain i (xs ++ ys) j := by
  induction xs generalizing i with
  | nil => exact capChain_mono h1 h2
  | cons c xs ih => exact ⟨h1.1, h1.2.1, ih h1.2.2⟩

/-- End position of a capture chain is at or after its start. -/
theorem capChain_le {i j : Nat} {cs : Caps} (h : capChain i cs j) : i ≤ j := by
  induction cs generalizing i with
  | nil => exact h
  | cons c cs ih => exact le_trans (le_trans h.1 h.2.1) (ih h.2.2)

/-- Every capture of a chain is a well-formed interval inside the chain's
bounds. -/
theorem capChain_bounds {i j : Nat} {cs : Caps} (h : capChain i cs j) :
    ∀ c ∈ cs, i ≤ c.2.1 ∧ c.2.1 ≤ c.2.2 ∧ c.2.2 ≤ j := by
  induction cs generalizing i with
  | nil => intro c hc; cases hc
  | cons c0 cs ih =>
    intro c hc
    cases hc with
    | head => exact ⟨h.1, h.2.1, capChain_le h.2.2⟩
    | tail _ hm =>
      have := ih h.2.2 c hm
      exact ⟨le_trans (le_trans h.1 h.2.1) this.1, this.2.1, this.2.2⟩

/-- Distinct captures of a chain occupy disjoint stretches, one ending before
the other starts. -/
theorem capChain_pairwise {i j : Nat} {cs : Caps} (h : capChain i cs j) :
    List.Pairwise (fun x y : Nat × Nat × Nat => x.2.2 ≤ y.2.1 ∨ y.2.2 ≤ x.2.1) cs := by
  induction cs generalizing i with
  | nil => exact List.Pairwise.nil
  | cons c cs ih =>
    refine List.Pairwise.cons ?_ (ih h.2.2)
    intro y hy
    exact Or.inl (capChain_bounds h.2.2 y hy).1

/-- Central invariant of the backtracking matcher: a successful run reaches
its continuation at a position no earlier than where it started (strictly
later when the pattern always consumes), contributing no captures when the
pattern is capture-free, and contributing, for patterns without nested
groups, a sequential chain of captures between the two positions. -/
theorem reRun_spec (t : List Char) :
    ∀ (fuel : Nat) (re : RE) (i : Nat) (k : Nat → Caps → Option (Nat × Caps)) (g : Caps)
      (r : Nat × Caps), reRun t fuel re i k g = some r →
      ∃ j gn, i ≤ j
        ∧ (consumesPos re = true → i < j)
        ∧ (gFree re = true → gn = [])
        ∧ (flatG re = true → capChain i gn.reverse j)
        ∧ k j (gn ++ g) = some r := by
  intro fuel
  induction fuel with
  | zero => intro re i k g r h; simp [reRun] at h
  | succ fuel ih =>
    intro re i k g r h
    cases re with
    | eps =>
      exact ⟨i, [], le_refl i, by simp [consumesPos], fun _ => rfl,
        fun _ => le_refl i, h⟩
    | one c =>
      simp only [reRun] at h
      cases hg : t.get? i with
      | none => simp only [hg] at h; cases h
      | some ch =>
        simp only [hg] at h
        by_cases hm : c.mem ch = true
        · rw [if_pos hm] at h
          exact ⟨i + 1, [], Nat.le_succ i, fun _ => Nat.lt_succ_self i, fun _ => rfl,
            fun _ => Nat.le_succ i, h⟩
        · rw [if_neg hm] at h; cases h
    | lit s =>
      simp only [reRun] at h
      by_cases hm : litAt t i s.data = true
      · rw [if_pos hm] at h
        refine ⟨i + s.data.length, [], Nat.le_add_right .., ?_, fun _ => rfl,
          fun _ => Nat.le_add_right .., h⟩
        intro hcp
        simp only [consumesPos, Bool.not_eq_true'] at hcp
        have hlen : s.data.length ≠ 0 := by
          cases hd : s.data with
          | nil => rw [hd] at hcp; simp [List.isEmpty] at hcp
          | cons c cs => simp [hd]
        omega
      · rw [if_neg hm] at h; cases h
    | seq a b =>
      simp only [reRun] at h
      obtain ⟨m, ga, him, hcpa, hgfa, hfla, hk⟩ := ih a i _ g r h
      obtain ⟨j, gb, hmj, hcpb, hgfb, hflb, hk2⟩ := ih b m _ (ga ++ g) r hk
      refine ⟨j, gb ++ ga, le_trans him hmj, ?_, ?_, ?_, ?_⟩
      · intro hcp
        simp only [consumesPos, Bool.or_eq_true] at hcp
        rcases hcp with hcp | hcp
        · exact lt_of_lt_of_le (hcpa hcp) hmj
        · exact lt_of_le_of_lt him (hcpb hcp)
      · intro hgf
        simp only [gFree, Bool.and_eq_true] at hgf
        rw [hgfa hgf.1, hgfb hgf.2]; rfl
      · intro hfl
        simp only [flatG, Bool.and_eq_true] at hfl
        rw [List.reverse_append]
        exact capChain_append (hfla hfl.1) (hflb hfl.2)
      · rw [List.append_assoc]; exact hk2
    | alt a b =>
      simp only [reRun] at h
      cases hra : reRun t fuel a i k g with
      | some res =>
        simp only [hra] at h
        cases h
        obtain ⟨j, gn, hij, hcp, hgf, hfl, hk⟩ := ih a i k g _ hra
        refine ⟨j, gn, hij, ?_, ?_, ?_, hk⟩
        · intro hc
          simp only [consumesPos, Bool.and_eq_true] at hc
          exact hcp hc.1
        · intro hg
          simp only [gFree, Bool.and_eq_true] at hg
          exact hgf hg.1
        · intro hf
          simp only [flatG, Bool.and_eq_true] at hf
          exact hfl hf.1
      | none =>
        simp only [hra] at h
        obtain ⟨j, gn, hij, hcp, hgf, hfl, hk⟩ := ih b i k g r h
        refine ⟨j, gn, hij, ?_, ?_, ?_, hk⟩
        · intro hc
          simp only [consumesPos, Bool.and_eq_true] at hc
          exact hcp hc.2
        · intro hg
          simp only [gFree, Bool.and_eq_true] at hg
          exact hgf hg.2
        · intro hf
          simp only [flatG, Bool.and_eq_true] at hf
          exact hfl hf.2
    | star p =>
      simp only [reRun] at h
      cases hrp : reRun t fuel p i
          (fun j g2 => if j = i then none else reRun t fuel (.star p) j k g2) g with
      | some res =>
        simp only [hrp] at h
        cases h
        obtain ⟨m, gp, him, _, hgfp, hflp, hk⟩ := ih p i _ g _ hrp
        by_cases hmi : m = i
        · rw [hmi] at hk; simp at hk
        · simp only [if_neg hmi] at hk
          obtain ⟨j, gs, hmj, _, hgfs, hfls, hk2⟩ := ih (.star p) m k (gp ++ g) _ hk
          refine ⟨j, gs ++ gp, le_trans him hmj, by simp [consumesPos], ?_, ?_, ?_⟩
          · intro hg
            simp only [gFree] at hg
            rw [hgfp hg, hgfs (by simpa [gFree] using hg)]; rfl
          · intro hf
            simp only [flatG] at hf
            rw [List.reverse_append]
            exact capChain_append (hflp hf) (hfls (by simpa [flatG] using hf))
          · rw [List.append_assoc]; exact hk2
      | none =>
        simp only [hrp] at h
        exact ⟨i, [], le_refl i, by simp [consumesPos], fun _ => rfl, fun _ => le_refl i, h⟩
    | opt p =>
      simp only [reRun] at h
      cases hrp : reRun t fuel p i k g with
      | some res =>
        simp only [hrp] at h
        cases h
        obtain ⟨j, gn, hij, _, hgf, hfl, hk⟩ := ih p i k g _ hrp
        exact ⟨j, gn, hij, by simp [consumesPos], fun hg => hgf (by simpa [gFree] using hg),
          fun hf => hfl (by simpa [flatG] using hf), hk⟩
      | none =>
        simp only [hrp] at h
        exact ⟨i, [], le_refl i, by simp [consumesPos], fun _ => rfl, fun _ => le_refl i, h⟩
    | look p =>
      simp only [reRun] at h
      cases hrp : reRun t fuel p i (fun j g2 => some (j, g2)) g with
      | some res =>
        simp only [hrp] at h
        exact ⟨i, [], le_refl i, by simp [consumesPos], fun _ => rfl, fun _ => le_refl i, h⟩
      | none => simp only [hrp] at h; cases h
    | nlb c =>
      simp only [reRun] at h
      by_cases hi : i = 0
      · rw [if_pos hi] at h
        exact ⟨i, [], le_refl i, by simp [consumesPos], fun _ => rfl, fun _ => le_refl i, h⟩
      · rw [if_neg hi] at h
        cases hg : t.get? (i - 1) with
        | none =>
          simp only [hg] at h
          exact ⟨i, [], le_refl i, by simp [consumesPos], fun _ => rfl, fun _ => le_refl i, h⟩
        | some ch =>
          simp only [hg] at h
          by_cases hm : c.mem ch = true
          · rw [if_pos hm] at h; cases h
          · rw [if_neg hm] at h
            exact ⟨i, [], le_refl i, by simp [consumesPos], fun _ => rfl, fun _ => le_refl i, h⟩
    | grp n p =>
      simp only [reRun] at h
      obtain ⟨j, gp, hij, hcp, hgf, _, hk⟩ := ih p i _ g r h
      refine ⟨j, (n, i, j) :: gp, hij, ?_, ?_, ?_, hk⟩
      · intro hc
        simp only [consumesPos] at hc
        exact hcp hc
      · intro hg
        simp only [gFree] at hg
        cases hg
      · intro hf
        simp only [flatG] at hf
        rw [hgf hf]
        exact ⟨le_refl i, hij, le_refl j⟩

/-- An anchored match attempt that succeeds yields a well-formed span
(strictly nonempty when the pattern always consumes) whose captures, for
patterns without nested groups, chain sequentially inside the span. -/
theorem runAt_spec {t : List Char} {r : RE} {i e : Nat} {caps : Caps}
    (h : runAt t r i = some (e, caps)) :
    i ≤ e ∧ (consumesPos r = true → i < e) ∧ (flatG r = true → capChain i caps.reverse e) := by
  obtain ⟨j, gn, hij, hcp, _, hfl, hk⟩ := reRun_spec t (t.length + 200) r i _ [] _ h
  have hje : j = e ∧ gn ++ [] = caps := by
    have := Option.some.inj hk
    exact ⟨congrArg Prod.fst this, congrArg Prod.snd this⟩
  obtain ⟨rfl, hgn⟩ := hje
  rw [List.append_nil] at hgn
  subst hgn
  exact ⟨hij, hcp, hfl⟩

/-- Every match reported by the scanner loop is an anchored success at its
start offset. -/
theorem finditerGo_mem {t : List Char} {r : RE} :
    ∀ (fuel i : Nat) (m : RMatch), m ∈ finditerGo t r fuel i →
      runAt t r m.s = some (m.e, m.caps) := by
  intro fuel
  induction fuel with
  | zero => intro i m hm; cases hm
  | succ fuel ih =>
    intro i m hm
    simp only [finditerGo] at hm
    by_cases hi : i > t.length
    · rw [if_pos hi] at hm; cases hm
    · rw [if_neg hi] at hm
      cases hr : runAt t r i with
      | some p =>
        rw [hr] at hm
        rcases p with ⟨e, g⟩
        cases hm with
        | head => exact hr
        | tail _ hm2 => exact ih _ m hm2
      | none =>
        rw [hr] at hm
        exact ih _ m hm

/-- Every match reported by finditer is an anchored success at its start. -/
theorem finditer_mem {t : List Char} {r : RE} {m : RMatch} (h : m ∈ finditer t r) :
    runAt t r m.s = some (m.e, m.caps) :=
  finditerGo_mem _ _ m h

/-- All five compiled patterns always consume input and have no nested
capture groups. -/
theorem thePatterns_wf : ∀ p ∈ thePatterns, consumesPos p = true ∧ flatG p = true := by
  decide

/-- Every selected match comes from the candidate stream. -/
theorem selectAux_subset : ∀ (ms : List RMatch) (acc : List (Nat × Nat)) (m : RMatch),
    m ∈ selectAux ms acc → m ∈ ms := by
  intro ms
  induction ms with
  | nil => intro acc m hm; cases hm
  | cons m0 ms ih =>
    intro acc m hm
    simp only [selectAux] at hm
    by_cases ho : overlapsB m0.s m0.e acc = true
    · rw [if_pos ho] at hm
      exact List.mem_cons_of_mem m0 (ih acc m hm)
    · rw [if_neg ho] at hm
      cases hm with
      | head => exact List.mem_cons_self ..
      | tail _ hm2 => exact List.mem_cons_of_mem m0 (ih _ m hm2)

/-- A selected match does not overlap any interval already accepted when the
selection started. -/
theorem selectAux_disj_acc : ∀ (ms : List RMatch) (acc : List (Nat × Nat)) (m : RMatch),
    m ∈ selectAux ms acc → ∀ q ∈ acc, m.e ≤ q.1 ∨ q.2 ≤ m.s := by
  intro ms
  induction ms with
  | nil => intro acc m hm; cases hm
  | cons m0 ms ih =>
    intro acc m hm
    simp only [selectAux] at hm
    by_cases ho : overlapsB m0.s m0.e acc = true
    · rw [if_pos ho] at hm
      exact ih acc m hm
    · rw [if_neg ho] at hm
      cases hm with
      | head =>
        intro q hq
        have := List.any_eq_false.mp (Bool.not_eq_true _ ▸ ho) q hq
        simp only [Bool.not_eq_true', Bool.not_eq_false, Bool.or_eq_true,
          decide_eq_true_eq] at this
        exact this
      | tail _ hm2 =>
        intro q hq
        exact ih _ m hm2 q (List.mem_cons_of_mem _ hq)

/-- The selected matches have pairwise non-overlapping spans, one ending at
or before the other's start. -/
theorem selectAux_pairwise : ∀ (ms : List RMatch) (acc : List (Nat × Nat)),
    List.Pairwise (fun a b : RMatch => a.e ≤ b.s ∨ b.e ≤ a.s) (selectAux ms acc) := by
  intro ms
  induction ms with
  | nil => intro acc; exact List.Pairwise.nil
  | cons m0 ms ih =>
    intro acc
    simp only [selectAux]
    by_cases ho : overlapsB m0.s m0.e acc = true
    · rw [if_pos ho]; exact ih acc
    · rw [if_neg ho]
      refine List.Pairwise.cons ?_ (ih _)
      intro b hb
      have := selectAux_disj_acc ms _ b hb (m0.s, m0.e) (List.mem_cons_self _ _)
      rcases this with h1 | h1
      · exact Or.inr h1
      · exact Or.inl h1

/-- With sequentially chained captures, looked-up groups with distinct
numbers occupy intervals with empty intersection (a failed lookup yields the
empty interval (0,0)). -/
theorem capOf_disj {m : RMatch} (hch : capChain m.s m.caps.reverse m.e)
    {n1 n2 : Nat} (hne : n1 ≠ n2) : ivDisj (capOf m n1) (capOf m n2) := by
  intro x hx
  obtain ⟨hx1, hx2, hx3, hx4⟩ := hx
  simp only [capOf] at hx1 hx2 hx3 hx4
  cases h1 : m.caps.find? (fun c => c.1 = n1) with
  | none => simp only [h1] at hx2; omega
  | some c1 =>
    cases h2 : m.caps.find? (fun c => c.1 = n2) with
    | none => simp only [h2] at hx4; omega
    | some c2 =>
      simp only [h1] at hx1 hx2
      simp only [h2] at hx3 hx4
      have hc1n : c1.1 = n1 := by simpa using List.find?_some h1
      have hc2n : c2.1 = n2 := by simpa using List.find?_some h2
      have hm1 : c1 ∈ m.caps.reverse := List.mem_reverse.mpr (List.mem_of_find?_eq_some h1)
      have hm2 : c2 ∈ m.caps.reverse := List.mem_reverse.mpr (List.mem_of_find?_eq_some h2)
      have hcc : c1 ≠ c2 := fun he => hne (by rw [← hc1n, ← hc2n, he])
      have hsym : Symmetric (fun x y : Nat × Nat × Nat => x.2.2 ≤ y.2.1 ∨ y.2.2 ≤ x.2.1) :=
        fun x y h => h.symm
      have hrel := (capChain_pairwise hch).forall hsym hm1 hm2 hcc
      rcases hrel with h | h <;> omega

/-- With sequentially chained captures, a looked-up group either is the empty
default interval or sits inside the match span. -/
theorem capOf_bounds {m : RMatch} (hch : capChain m.s m.caps.reverse m.e) (n : Nat) :
    capOf m n = (0, 0) ∨
      (m.s ≤ (capOf m n).1 ∧ (capOf m n).1 ≤ (capOf m n).2 ∧ (capOf m n).2 ≤ m.e) := by
  unfold capOf
  cases h1 : m.caps.find? (fun c => c.1 = n) with
  | none => exact Or.inl rfl
  | some c =>
    have hm : c ∈ m.caps.reverse := List.mem_reverse.mpr (List.mem_of_find?_eq_some h1)
    exact Or.inr (capChain_bounds hch c hm)

/-- The NER spans of a single match are pairwise non-overlapping. -/
theorem nerOfMatch_pairwise {t : List Char} {m : RMatch}
    (hch : capChain m.s m.caps.reverse m.e) :
    List.Pairwise (fun a b : NerSpan => ivDisj (a.s, a.e) (b.s, b.e)) (nerOfMatch t m) := by
  have hd : ∀ n1 n2 : Nat, n1 ≠ n2 →
      ivDisj ((capOf m n1).1, (capOf m n1).2) ((capOf m n2).1, (capOf m n2).2) := by
    intro n1 n2 hne
    have h := capOf_disj hch hne
    intro x hx
    exact h x hx
  unfold nerOfMatch
  split_ifs with h2 h3 h4
  · refine List.Pairwise.cons ?_ (List.Pairwise.cons ?_ List.Pairwise.nil)
    · intro sp hsp
      simp only [nerOfCap, List.mem_cons, List.not_mem_nil, or_false] at hsp
      subst hsp
      exact hd 1 2 (by omega)
    · intro sp hsp
      exact absurd hsp (List.not_mem_nil sp)
  · refine List.Pairwise.cons ?_ (List.Pairwise.cons ?_
      (List.Pairwise.cons ?_ List.Pairwise.nil))
    · intro sp hsp
      simp only [nerOfCap, List.mem_cons, List.not_mem_nil, or_false] at hsp
      rcases hsp with rfl | rfl
      · exact hd 1 2 (by omega)
      · exact hd 1 3 (by omega)
    · intro sp hsp
      simp only [nerOfCap, List.mem_cons, List.not_mem_nil, or_false] at hsp
      subst hsp
      exact hd 2 3 (by omega)
    · intro sp hsp
      exact absurd hsp (List.not_mem_nil sp)
  · refine List.Pairwise.cons ?_ (List.Pairwise.cons ?_
      (List.Pairwise.cons ?_ (List.Pairwise.cons ?_ List.Pairwise.nil)))
    · intro sp hsp
      simp only [nerOfCap, List.mem_cons, List.not_mem_nil, or_false] at hsp
      rcases hsp with rfl | rfl | rfl
      · exact hd 1 2 (by omega)
      · exact hd 1 3 (by omega)
      · exact hd 1 4 (by omega)
    · intro sp hsp
      simp only [nerOfCap, List.mem_cons, List.not_mem_nil, or_false] at hsp
      rcases hsp with rfl | rfl
      · exact hd 2 3 (by omega)
      · exact hd 2 4 (by omega)
    · intro sp hsp
      simp only [nerOfCap, List.mem_cons, List.not_mem_nil, or_false] at hsp
      subst hsp
      exact hd 3 4 (by omega)
    · intro sp hsp
      exact absurd hsp (List.not_mem_nil sp)
  · exact List.Pairwise.nil

/-- Each NER span of a match is the empty default or sits inside the span of
its match. -/
theorem nerOfMatch_bounds {t : List Char} {m : RMatch}
    (hch : capChain m.s m.caps.reverse m.e) :
    ∀ sp ∈ nerOfMatch t m, sp.e = 0 ∨ (m.s ≤ sp.s ∧ sp.e ≤ m.e) := by
  intro sp hsp
  have hb : ∀ n : Nat, (capOf m n).2 = 0 ∨ (m.s ≤ (capOf m n).1 ∧ (capOf m n).2 ≤ m.e) := by
    intro n
    rcases capOf_bounds hch n with h | h
    · exact Or.inl (by rw [h])
    · exact Or.inr ⟨h.1, h.2.2⟩
  unfold nerOfMatch at hsp
  split_ifs at hsp
  · simp only [nerOfCap, List.mem_cons, List.not_mem_nil, or_false] at hsp
    rcases hsp with rfl | rfl
    · exact hb 1
    · exact hb 2
  · simp only [nerOfCap, List.mem_cons, List.not_mem_nil, or_false] at hsp
    rcases hsp with rfl | rfl | rfl
    · exact hb 1
    · exact hb 2
    · exact hb 3
  · simp only [nerOfCap, List.mem_cons, List.not_mem_nil, or_false] at hsp
    rcases hsp with rfl | rfl | rfl | rfl
    · exact hb 1
    · exact hb 2
    · exact hb 3
    · exact hb 4
  · exact absurd hsp (List.not_mem_nil sp)

/-- Pairwise for a flat map: inner lists pairwise, and elements of lists of
related sources related across. -/
theorem pairwise_flatMap {α β : Type} {R : β → β → Prop} {P : α → α → Prop}
    {f : α → List β} :
    ∀ {l : List α}, List.Pairwise P l → (∀ a ∈ l, List.Pairwise R (f a)) →
      (∀ a b, P a b → ∀ x ∈ f a, ∀ y ∈ f b, R x y) →
      List.Pairwise R (l.flatMap f) := by
  intro l
  induction l with
  | nil => intro _ _ _; exact List.Pairwise.nil
  | cons a l ih =>
    intro hl hinner hcross
    rw [List.flatMap_cons, List.pairwise_append]
    refine ⟨hinner a (List.mem_cons_self _ _), ?_, ?_⟩
    · exact ih (List.Pairwise.sublist (List.sublist_cons_self a l) hl)
        (fun b hb => hinner b (List.mem_cons_of_mem a hb)) hcross
    · intro x hx y hy
      obtain ⟨b, hb, hyb⟩ := List.mem_flatMap.mp hy
      exact hcross a b (List.rel_of_pairwise_cons hl hb) x hx y hyb

/-- Chain facts for every match selected by the five-pattern matcher. -/
theorem nonOverlappingMatches_wf {t : List Char} {m : RMatch}
    (hm : m ∈ nonOverlappingMatches t) :
    m.s < m.e ∧ capChain m.s m.caps.reverse m.e := by
  have hmem := selectAux_subset _ _ _ hm
  obtain ⟨p, hp, hmp⟩ := List.mem_flatMap.mp hmem
  have hr := finditer_mem hmp
  obtain ⟨_, hcp, hfl⟩ := runAt_spec hr
  obtain ⟨hcpp, hflp⟩ := thePatterns_wf p hp
  exact ⟨hcp hcpp, hfl hflp⟩

/-- C1: the matcher walks the five patterns most-specific-first and each
pattern's matches left to right (the selection step is literally the
skip-or-accept rule of the source, first two conjuncts); a candidate passes
the overlap test exactly when its half-open interval has empty intersection
with every previously accepted interval (third conjunct, for the nonempty
intervals the patterns produce), and an accepted interval makes every later
overlapping candidate be discarded (fourth conjunct); consequently, for every
text, the accepted matches backing extract have pairwise disjoint spans and
the NER spans of extract_ner_spans are pairwise disjoint (last conjuncts). -/
theorem c1_non_overlapping_selection :
    (∀ s : String, extract_structured s =
        (selectAux (thePatterns.flatMap (finditer s.data)) []).filterMap (interpretMatch s.data))
    ∧ (∀ (m : RMatch) (ms : List RMatch) (acc : List (Nat × Nat)),
        selectAux (m :: ms) acc =
          if overlapsB m.s m.e acc then selectAux ms acc
          else m :: selectAux ms ((m.s, m.e) :: acc))
    ∧ (∀ (m : RMatch) (acc : List (Nat × Nat)), m.s < m.e → (∀ q ∈ acc, q.1 < q.2) →
        (overlapsB m.s m.e acc = false ↔ ∀ q ∈ acc, ivDisj (m.s, m.e) q))
    ∧ (∀ (m : RMatch) (ms : List RMatch) (acc : List (Nat × Nat)),
        overlapsB m.s m.e acc = true → selectAux (m :: ms) acc = selectAux ms acc)
    ∧ (∀ t : List Char,
        List.Pairwise (fun a b : RMatch => ivDisj (spanOf a) (spanOf b))
          (nonOverlappingMatches t))
    ∧ (∀ s : String,
        List.Pairwise (fun a b : NerSpan => ivDisj (a.s, a.e) (b.s, b.e))
          (extract_ner_spans s)) := by
  refine ⟨fun s => rfl, fun m ms acc => rfl, ?_, ?_, ?_, ?_⟩
  · intro m acc hme hacc
    constructor
    · intro ho q hq
      unfold overlapsB at ho
      have := List.any_eq_false.mp ho q hq
      simp only [Bool.not_eq_true', Bool.not_eq_false, Bool.or_eq_true,
        decide_eq_true_eq] at this
      intro x hx
      obtain ⟨h1, h2, h3, h4⟩ := hx
      rcases this with h | h <;> omega
    · intro hall
      unfold overlapsB
      rw [List.any_eq_false]
      intro q hq
      simp only [Bool.not_eq_true', Bool.not_eq_false, Bool.or_eq_true, decide_eq_true_eq]
      have hd := hall q hq
      have hq2 := hacc q hq
      by_contra hc
      push_neg at hc
      obtain ⟨hc1, hc2⟩ := hc
      have h1 : q.1 < m.e := by omega
      have h2 : m.s < q.2 := by omega
      exact hd (max m.s q.1) ⟨le_max_left .., by omega, le_max_right .., by omega⟩
  · intro m ms acc ho
    simp [selectAux, ho]
  · intro t
    refine (selectAux_pairwise _ _).imp ?_
    intro a b h x hx
    simp only [spanOf] at hx
    omega
  · intro s
    have hpw := selectAux_pairwise (thePatterns.flatMap (finditer s.data)) []
    have hup : List.Pairwise
        (fun a b : RMatch =>
          (a.s < a.e ∧ capChain a.s a.caps.reverse a.e)
          ∧ (b.s < b.e ∧ capChain b.s b.caps.reverse b.e)
          ∧ (a.e ≤ b.s ∨ b.e ≤ a.s))
        (nonOverlappingMatches s.data) := by
      refine hpw.imp_of_mem ?_
      intro a b ha hb h
      exact ⟨nonOverlappingMatches_wf ha, nonOverlappingMatches_wf hb, h⟩
    refine pairwise_flatMap hup ?_ ?_
    · intro a ha
      exact nerOfMatch_pairwise (nonOverlappingMatches_wf ha).2
    · intro a b hab x hx y hy
      obtain ⟨⟨_, hcha⟩, ⟨_, hchb⟩, hdisj⟩ := hab
      have hbx := nerOfMatch_bounds hcha x hx
      have hby := nerOfMatch_bounds hchb y hy
      intro pt hpt
      obtain ⟨p1, p2, p3, p4⟩ := hpt
      rcases hbx with hbx | hbx
      · omega
      · rcases hby with hby | hby
        · omega
        · rcases hdisj with h | h <;> omega

/-- C1 witness: the selection rule evaluated at concrete inputs — a candidate
overlapping an accepted interval is dropped and the overlap test agrees with
interval disjointness on a concrete accepted set. -/
theorem c1_non_overlapping_selection_witness :
    (overlapsB 3 7 [(0, 5)] = false ↔ ∀ q ∈ [((0 : Nat), (5 : Nat))], ivDisj (3, 7) q)
    ∧ selectAux [⟨3, 7, []⟩] [(0, 5)] = selectAux [] [(0, 5)]
    ∧ extract_structured c2text =
        (selectAux (thePatterns.flatMap (finditer c2text.data)) []).filterMap
          (interpretMatch c2text.data) := by
  refine ⟨?_, ?_, ?_⟩
  · exact c1_non_overlapping_selection.2.2.1 ⟨3, 7, []⟩ [(0, 5)] (by decide) (by decide)
  · exact c1_non_overlapping_selection.2.2.2.1 ⟨3, 7, []⟩ [] [(0, 5)] (by decide)
  · exact c1_non_overlapping_selection.1 c2text

/-- A common subsequence never exceeds the first string. -/
theorem lcsF_le_left : ∀ (fuel : Nat) (as bs : List Char), lcsF fuel as bs ≤ as.length := by
  intro fuel
  induction fuel with
  | zero => intro as bs; simp [lcsF]
  | succ fuel ih =>
    intro as bs
    cases as with
    | nil => simp [lcsF]
    | cons a as =>
      cases bs with
      | nil => simp [lcsF]
      | cons b bs =>
        simp only [lcsF]
        by_cases hab : a = b
        · rw [if_pos hab]
          have := ih as bs
          simp only [List.length_cons]
          omega
        · rw [if_neg hab]
          have h1 := ih (a :: as) bs
          have h2 := ih as (b :: bs)
          simp only [List.length_cons] at h1 h2 ⊢
          omega

/-- A common subsequence never exceeds the second string. -/
theorem lcsF_le_right : ∀ (fuel : Nat) (as bs : List Char), lcsF fuel as bs ≤ bs.length := by
  intro fuel
  induction fuel with
  | zero => intro as bs; simp [lcsF]
  | succ fuel ih =>
    intro as bs
    cases as with
    | nil => simp [lcsF]
    | cons a as =>
      cases bs with
      | nil => simp [lcsF]
      | cons b bs =>
        simp only [lcsF]
        by_cases hab : a = b
        · rw [if_pos hab]
          have := ih as bs
          simp only [List.length_cons]
          omega
        · rw [if_neg hab]
          have h1 := ih (a :: as) bs
          have h2 := ih as (b :: bs)
          simp only [List.length_cons] at h1 h2 ⊢
          omega

/-- A common subsequence as long as both strings forces them equal. -/
theorem lcsF_eq_lengths : ∀ (fuel : Nat) (as bs : List Char),
    as.length + bs.length ≤ fuel → lcsF fuel as bs = as.length →
    lcsF fuel as bs = bs.length → as = bs := by
  intro fuel
  induction fuel with
  | zero =>
    intro as bs hf h1 h2
    cases as with
    | nil =>
      cases bs with
      | nil => rfl
      | cons b bs => simp at hf
    | cons a as => simp at hf
  | succ fuel ih =>
    intro as bs hf h1 h2
    cases as with
    | nil =>
      cases bs with
      | nil => rfl
      | cons b bs => simp [lcsF] at h2
    | cons a as =>
      cases bs with
      | nil => simp [lcsF] at h1
      | cons b bs =>
        simp only [lcsF] at h1 h2
        by_cases hab : a = b
        · rw [if_pos hab] at h1 h2
          simp only [List.length_cons] at h1 h2 hf
          have := ih as bs (by omega) (by omega) (by omega)
          rw [hab, this]
        · rw [if_neg hab] at h1 h2
          have hu := lcsF_le_right fuel (a :: as) bs
          have hv := lcsF_le_left fuel as (b :: bs)
          simp only [List.length_cons] at h1 h2 hu hv
          omega

/-- Strings are equal when their string pieces are. -/
theorem stringDataEq {a b : String} (h : a.data = b.data) : a = b :=
  congrArg String.mk h

/-- A perfect similarity score of 100 identifies the two strings. -/
theorem simScore_eq_100 {a b : String} (h : simScore a b = 100) : a = b := by
  unfold simScore at h
  by_cases hlen : a.data.length + b.data.length = 0
  · rw [if_pos hlen] at h
    have ha : a.data = [] := List.eq_nil_of_length_eq_zero (by omega)
    have hb : b.data = [] := List.eq_nil_of_length_eq_zero (by omega)
    exact stringDataEq (ha.trans hb.symm)
  · rw [if_neg hlen] at h
    rw [Rat.mkRat_eq_divInt, Rat.divInt_eq_div] at h
    have hd : (((a.data.length + b.data.length : Nat) : Int) : ℚ) ≠ 0 := by
      exact_mod_cast hlen
    rw [div_eq_iff hd] at h
    have hInt : (200 * (lcs a.data b.data : Int)) =
        100 * ((a.data.length : Int) + (b.data.length : Int)) := by
      exact_mod_cast h
    have h1 := lcsF_le_left (a.data.length + b.data.length) a.data b.data
    have h2 := lcsF_le_right (a.data.length + b.data.length) a.data b.data
    unfold lcs at hInt
    have hl : lcsF (a.data.length + b.data.length) a.data b.data = a.data.length ∧
        lcsF (a.data.length + b.data.length) a.data b.data = b.data.length := by omega
    exact stringDataEq
      (lcsF_eq_lengths (a.data.length + b.data.length) a.data b.data le_rfl hl.1 hl.2)

/-- The computable score division agrees with plain division by 100. -/
theorem qDiv100_eq (s : ℚ) : qDiv100 s = s / 100 := by
  unfold qDiv100
  rw [Rat.mkRat_eq_divInt, Rat.divInt_eq_div]
  push_cast
  rw [div_mul_eq_div_div]
  rw [Rat.num_div_den]

/-- When every choice scores below the cutoff the scan keeps its incumbent. -/
theorem foldl_extractStep_all_lt (q : String) (cutoff : ℚ) :
    ∀ (cs : List String) (acc : Option (String × ℚ)),
      (∀ v ∈ cs, simScore q v < cutoff) → cs.foldl (extractStep q cutoff) acc = acc := by
  intro cs
  induction cs with
  | nil => intro acc _; rfl
  | cons v cs ih =>
    intro acc hall
    rw [List.foldl_cons]
    have hstep : extractStep q cutoff acc v = acc := by
      unfold extractStep
      rw [if_pos (hall v (List.mem_cons_self _ _))]
    rw [hstep]
    exact ih acc (fun w hw => hall w (List.mem_cons_of_mem _ hw))

/-- Step result on an incumbent, spelled out. -/
theorem extractStep_some (q : String) (cutoff : ℚ) (p : String × ℚ) (v : String) :
    extractStep q cutoff (some p) v =
      if simScore q v < cutoff then some p
      else if p.2 < simScore q v then some (v, simScore q v) else some p := by
  by_cases hs : simScore q v < cutoff <;> simp [extractStep, hs]

/-- Step result on an empty incumbent, spelled out. -/
theorem extractStep_none (q : String) (cutoff : ℚ) (v : String) :
    extractStep q cutoff none v =
      if simScore q v < cutoff then none else some (v, simScore q v) := by
  by_cases hs : simScore q v < cutoff <;> simp [extractStep, hs]

/-- A scan that holds an incumbent keeps holding one. -/
theorem foldl_extractStep_some (q : String) (cutoff : ℚ) :
    ∀ (cs : List String) (p : String × ℚ),
      ∃ p', cs.foldl (extractStep q cutoff) (some p) = some p' := by
  intro cs
  induction cs with
  | nil => intro p; exact ⟨p, rfl⟩
  | cons v cs ih =>
    intro p
    rw [List.foldl_cons, extractStep_some]
    split_ifs
    · exact ih p
    · exact ih (v, simScore q v)
    · exact ih p

/-- A choice at or above the cutoff guarantees the scan reports something. -/
theorem foldl_extractStep_exists (q : String) (cutoff : ℚ) :
    ∀ (cs : List String) (acc : Option (String × ℚ)) (v0 : String), v0 ∈ cs →
      cutoff ≤ simScore q v0 → ∃ p', cs.foldl (extractStep q cutoff) acc = some p' := by
  intro cs
  induction cs with
  | nil => intro acc v0 hv0 _; cases hv0
  | cons v cs ih =>
    intro acc v0 hv0 hc
    rw [List.foldl_cons]
    cases hv0 with
    | head =>
      have hstep : ∃ p2, extractStep q cutoff acc v = some p2 := by
        cases acc with
        | none =>
          rw [extractStep_none, if_neg (not_lt.mpr hc)]
          exact ⟨_, rfl⟩
        | some p =>
          rw [extractStep_some, if_neg (not_lt.mpr hc)]
          split_ifs <;> exact ⟨_, rfl⟩
      obtain ⟨p2, hp2⟩ := hstep
      rw [hp2]
      exact foldl_extractStep_some q cutoff cs p2
    | tail _ hmem => exact ih (extractStep q cutoff acc v) v0 hmem hc

/-- The reported score of the scan dominates every choice that reached the
cutoff, and its incumbent's score. -/
theorem foldl_extractStep_ge (q : String) (cutoff : ℚ) :
    ∀ (cs : List String) (acc : Option (String × ℚ)) (p' : String × ℚ),
      cs.foldl (extractStep q cutoff) acc = some p' →
      (∀ w ∈ cs, simScore q w < cutoff ∨ simScore q w ≤ p'.2)
      ∧ (∀ p, acc = some p → p.2 ≤ p'.2) := by
  intro cs
  induction cs with
  | nil =>
    intro acc p' h
    refine ⟨fun w hw => absurd hw (List.not_mem_nil w), fun p hp => ?_⟩
    rw [hp] at h
    cases h
    exact le_refl _
  | cons v cs ih =>
    intro acc p' h
    rw [List.foldl_cons] at h
    obtain ⟨hcs, hacc⟩ := ih (extractStep q cutoff acc v) p' h
    constructor
    · intro w hw
      cases hw with
      | head =>
        by_cases hs : simScore q v < cutoff
        · exact Or.inl hs
        · refine Or.inr ?_
          cases hac : acc with
          | none =>
            refine hacc (v, simScore q v) ?_
            rw [hac, extractStep_none, if_neg hs]
          | some p =>
            by_cases hps : p.2 < simScore q v
            · refine hacc (v, simScore q v) ?_
              rw [hac, extractStep_some, if_neg hs, if_pos hps]
            · refine le_trans (not_lt.mp hps) (hacc p ?_)
              rw [hac, extractStep_some, if_neg hs, if_neg hps]
      | tail _ hmem => exact hcs w hmem
    · intro p hp
      by_cases hs : simScore q v < cutoff
      · refine hacc p ?_
        rw [hp, extractStep_some, if_pos hs]
      · by_cases hps : p.2 < simScore q v
        · refine le_trans (le_of_lt hps) (hacc (v, simScore q v) ?_)
          rw [hp, extractStep_some, if_neg hs, if_pos hps]
        · refine hacc p ?_
          rw [hp, extractStep_some, if_neg hs, if_neg hps]

/-- What the scan reports is either its incumbent or a choice scoring its own
similarity, at or above the cutoff. -/
theorem foldl_extractStep_mem (q : String) (cutoff : ℚ) :
    ∀ (cs : List String) (acc : Option (String × ℚ)) (p' : String × ℚ),
      cs.foldl (extractStep q cutoff) acc = some p' →
      acc = some p' ∨ (p'.1 ∈ cs ∧ p'.2 = simScore q p'.1 ∧ cutoff ≤ p'.2) := by
  intro cs
  induction cs with
  | nil => intro acc p' h; exact Or.inl h
  | cons v cs ih =>
    intro acc p' h
    rw [List.foldl_cons] at h
    rcases ih (extractStep q cutoff acc v) p' h with hacc | ⟨hm, hsc, hct⟩
    · by_cases hs : simScore q v < cutoff
      · cases acc with
        | none =>
          rw [extractStep_none, if_pos hs] at hacc
          cases hacc
        | some p =>
          rw [extractStep_some, if_pos hs] at hacc
          exact Or.inl hacc
      · cases acc with
        | none =>
          rw [extractStep_none, if_neg hs] at hacc
          cases hacc
          exact Or.inr ⟨List.mem_cons_self _ _, rfl, not_lt.mp hs⟩
        | some p =>
          rw [extractStep_some, if_neg hs] at hacc
          by_cases hps : p.2 < simScore q v
          · rw [if_pos hps] at hacc
            cases hacc
            exact Or.inr ⟨List.mem_cons_self _ _, rfl, not_lt.mp hs⟩
          · rw [if_neg hps] at hacc
            exact Or.inl hacc
    · exact Or.inr ⟨List.mem_cons_of_mem _ hm, hsc, hct⟩

/-- extractOne reports a maximal-scoring choice whenever some choice reaches
the cutoff and a maximum exists in the list. -/
theorem extractOne_best {q : String} {cutoff : ℚ} {cs : List String} {v0 : String}
    (hmem : v0 ∈ cs) (hmax : ∀ w ∈ cs, simScore q w ≤ simScore q v0)
    (hthr : cutoff ≤ simScore q v0) :
    ∃ w, extractOne q cs cutoff = some (w, simScore q v0)
      ∧ w ∈ cs ∧ simScore q w = simScore q v0 := by
  obtain ⟨p', hp⟩ := foldl_extractStep_exists q cutoff cs none v0 hmem hthr
  rcases foldl_extractStep_mem q cutoff cs none p' hp with hacc | ⟨hm, hsc, hct⟩
  · cases hacc
  · have hge := (foldl_extractStep_ge q cutoff cs none p' hp).1 v0 hmem
    have h1 : simScore q v0 ≤ p'.2 := by
      rcases hge with hge | hge
      · exact absurd hthr (not_le.mpr hge)
      · exact hge
    have h2 : p'.2 ≤ simScore q v0 := hsc ▸ hmax p'.1 hm
    have hps : p'.2 = simScore q v0 := le_antisymm h2 h1
    refine ⟨p'.1, ?_, hm, by rw [← hsc, hps]⟩
    unfold extractOne
    rw [hp, ← hps]

/-- A key of the alias map always resolves. -/
theorem dictGet_of_mem_keys : ∀ (m : List (String × Book)) (w : String),
    w ∈ dictKeys m → ∃ b, dictGet m w = some b := by
  intro m
  induction m with
  | nil => intro w hw; cases hw
  | cons p ps ih =>
    intro w hw
    by_cases hp : p.1 = w
    · exact ⟨p.2, by simp [dictGet, List.find?, hp]⟩
    · have hw2 : w ∈ dictKeys ps := by
        cases hw with
        | head => exact absurd rfl hp
        | tail _ h => exact h
      obtain ⟨b, hb⟩ := ih w hw2
      exact ⟨b, by simpa [dictGet, List.find?, hp] using hb⟩

/-- C5: for a nonempty query that misses the exact lookup, when every known
alias scores below the configured threshold the fuzzy matcher returns no
record with confidence 0 and the resolver answers failed; when some alias
attains the best score and that score reaches the threshold, the resolver
returns the best-scoring alias's book with method fuzzy, and the fuzzy
confidence is exactly that score divided by 100, hence at least
threshold/100. -/
theorem c5_fuzzy_resolution (books : List Book) (thr : ℚ) (q : String)
    (hq : q ≠ "")
    (hexact : dictGet (buildAliasMapping books) (pyNormalize q) = none) :
    ((∀ v ∈ dictKeys (buildAliasMapping books), simScore (pyNormalize q) v < thr) →
        fuzzyMatch books thr q = (none, 0)
        ∧ resolverResolve books thr q = (none, "failed"))
    ∧ (∀ v0 ∈ dictKeys (buildAliasMapping books),
        (∀ v ∈ dictKeys (buildAliasMapping books),
            simScore (pyNormalize q) v ≤ simScore (pyNormalize q) v0) →
        thr ≤ simScore (pyNormalize q) v0 →
        ∃ w b, w ∈ dictKeys (buildAliasMapping books)
          ∧ simScore (pyNormalize q) w = simScore (pyNormalize q) v0
          ∧ dictGet (buildAliasMapping books) w = some b
          ∧ fuzzyMatch books thr q = (some b, simScore (pyNormalize q) v0 / 100)
          ∧ thr / 100 ≤ simScore (pyNormalize q) v0 / 100
          ∧ resolverResolve books thr q = (some b, "fuzzy")) := by
  have hexactMatch : exactMatch books q = (none, 0) := by
    unfold exactMatch
    rw [if_neg hq, hexact]
  constructor
  · intro hall
    have hnone : extractOne (pyNormalize q) (dictKeys (buildAliasMapping books)) thr = none :=
      foldl_extractStep_all_lt (pyNormalize q) thr _ none hall
    have hfm : fuzzyMatch books thr q = (none, 0) := by
      unfold fuzzyMatch
      rw [if_neg hq]
      simp only [hnone]
    refine ⟨hfm, ?_⟩
    unfold resolverResolve
    rw [hexactMatch, hfm]
  · intro v0 hv0 hmax hthr
    obtain ⟨w, hone, hwmem, hwsc⟩ := extractOne_best hv0 hmax hthr
    obtain ⟨b, hb⟩ := dictGet_of_mem_keys _ w hwmem
    have hfm : fuzzyMatch books thr q = (some b, qDiv100 (simScore (pyNormalize q) v0)) := by
      unfold fuzzyMatch
      rw [if_neg hq]
      simp only [hone, hb]
    have hne100 : simScore (pyNormalize q) v0 ≠ 100 := by
      intro h100
      have : pyNormalize q = w := simScore_eq_100 (hwsc.trans h100)
      rw [← this] at hb
      rw [hexact] at hb
      cases hb
    have hconf1 : qDiv100 (simScore (pyNormalize q) v0) ≠ 1 := by
      rw [qDiv100_eq]
      intro h1
      apply hne100
      have : simScore (pyNormalize q) v0 / 100 * 100 = 1 * 100 := by rw [h1]
      rw [div_mul_cancel₀ _ (by norm_num : (100 : ℚ) ≠ 0), one_mul] at this
      exact this
    refine ⟨w, b, hwmem, hwsc, hb, ?_, ?_, ?_⟩
    · rw [hfm, qDiv100_eq]
    · have h100 : (0 : ℚ) < 100 := by norm_num
      linarith
    · unfold resolverResolve
      rw [hexactMatch, hfm]
      simp only [hconf1, if_false, if_neg hconf1]

/-- C5 witness: the resolution theorem applied to the unresolvable query Xyz
(all scores below 80, resolver fails) and to the near-miss query Kejadin
(best alias kejadian at score 1400/15, above 80, resolved fuzzy). -/
theorem c5_fuzzy_resolution_witness :
    (fuzzyMatch catalogBooks 80 "Xyz" = (none, 0)
      ∧ resolverResolve catalogBooks 80 "Xyz" = (none, "failed"))
    ∧ (∃ w b, w ∈ dictKeys (buildAliasMapping catalogBooks)
        ∧ simScore (pyNormalize "Kejadin") w = simScore (pyNormalize "Kejadin") "kejadian"
        ∧ dictGet (buildAliasMapping catalogBooks) w = some b
        ∧ fuzzyMatch catalogBooks 80 "Kejadin" =
            (some b, simScore (pyNormalize "Kejadin") "kejadian" / 100)
        ∧ (80 : ℚ) / 100 ≤ simScore (pyNormalize "Kejadin") "kejadian" / 100
        ∧ resolverResolve catalogBooks 80 "Kejadin" = (some b, "fuzzy")) := by
  constructor
  · exact (c5_fuzzy_resolution catalogBooks 80 "Xyz" (by decide) (by decide)).1 (by decide)
  · exact (c5_fuzzy_resolution catalogBooks 80 "Kejadin" (by decide) (by decide)).2
      "kejadian" (by decide) (by decide) (by decide)

end BibleRef
